import Mathlib

/-!
Shallow embedding of the question/answer cleaning pipeline implemented in
`clean_answers.py` of the quora-scraper repository.

Strings are modelled as `List Char`.  The Python regular expressions are
reduced to explicit character scans; each reduction step is justified in the
comment next to the definition (the default author pattern contains no
construct whose greedy backtracking can succeed after its first maximal
attempt fails, so every repetition can be taken maximally).
-/

set_option maxRecDepth 8000

namespace QuoraClean

/-- Strings are modelled as lists of unicode characters, matching Python
`str` semantics where indexing and slicing are per-character. -/
abbrev Str := List Char

/-- The regex class `[A-Z]` under `re.IGNORECASE`: any ASCII letter. -/
def isAsciiAlpha (c : Char) : Bool := c.isUpper || c.isLower

/-- The regex class `[ymo]` under `re.IGNORECASE`. -/
def isYMO (c : Char) : Bool :=
  c == 'y' || c == 'm' || c == 'o' || c == 'Y' || c == 'M' || c == 'O'

/-- Python whitespace for `str.strip()` and the regex class `\s`
(ASCII fragment): space, tab, newline, carriage return, vertical tab,
form feed. -/
def isPyWS (c : Char) : Bool :=
  c == ' ' || c == '\t' || c == '\n' || c == '\r' || c == '\x0b' || c == '\x0c'

/-- Test the character at index `j`, false when out of range. -/
def testChar (cs : Str) (j : Nat) (p : Char → Bool) : Bool :=
  match cs[j]? with
  | some c => p c
  | none => false

/-- The date alternative `(?:\d+[ymo]|[A-Z][a-z]{2} \d+)` of the default
author pattern, attempted at position `p`; returns the end position of the
group on success.  The greedy `\d+` can be taken maximally: shortening it
leaves a digit in the position where `[ymo]` is required, and a digit is
not in that class, so no backtracking succeeds after
the maximal attempt fails.  The second alternative is tried exactly when the
first fails, as in the regex engine. -/
def dateAlt (cs : Str) (p : Nat) : Option Nat :=
  let k := ((cs.drop p).takeWhile Char.isDigit).length
  if 1 ≤ k ∧ testChar cs (p + k) isYMO = true then
    some (p + k + 1)
  else
    let k2 := ((cs.drop (p + 4)).takeWhile Char.isDigit).length
    if testChar cs p isAsciiAlpha = true ∧ testChar cs (p + 1) isAsciiAlpha = true ∧
       testChar cs (p + 2) isAsciiAlpha = true ∧ cs[p + 3]? = some ' ' ∧ 1 ≤ k2 then
      some (p + 4 + k2)
    else none

/-- Attempt the default author pattern
`[A-Z][^·]{5,50}·(?:\d+[ymo]|[A-Z][a-z]{2} \d+)·?` (with `re.IGNORECASE`)
anchored at position `i`; returns the end of the match.  Because `[^·]`
cannot consume the separator, the bounded greedy repetition `[^·]{5,50}`
followed by the literal `·` succeeds exactly when the distance to the first
`·` after the leading letter lies in `[5,50]`; shorter attempts end on a
non-separator character, so the maximal attempt is the only candidate. -/
def matchAt (cs : Str) (i : Nat) : Option Nat :=
  match cs[i]? with
  | none => none
  | some c0 =>
    if isAsciiAlpha c0 then
      let run := ((cs.drop (i + 1)).takeWhile (fun c => c != '·')).length
      if 5 ≤ run ∧ run ≤ 50 ∧ cs[i + 1 + run]? = some '·' then
        match dateAlt cs (i + run + 2) with
        | some t => some (if cs[t]? = some '·' then t + 1 else t)
        | none => none
      else none
    else none

/-- `re.finditer` scan from position `i`: try each position left to right,
skip to the end of a match once one is found (all matches of the pattern are
non-empty).  `fuel` is an upper bound on the remaining scan steps;
`cs.length + 1` always suffices since the position strictly increases. -/
def findFrom (cs : Str) (i : Nat) : Nat → List (Nat × Nat)
  | 0 => []
  | fuel + 1 =>
    if i < cs.length then
      match matchAt cs i with
      | some e => (i, e) :: findFrom cs e fuel
      | none => findFrom cs (i + 1) fuel
    else []

/-- `list(re.finditer(author_pattern, text, re.IGNORECASE))` for the default
pattern, as the list of (start, end) offset pairs. -/
def findAuthorMatches (cs : Str) : List (Nat × Nat) :=
  findFrom cs 0 (cs.length + 1)

/-- `re.sub(author_pattern, '', text, re.IGNORECASE)` scan from position `i`:
copy characters, skipping every leftmost non-overlapping match. -/
def subFrom (cs : Str) (i : Nat) : Nat → Str
  | 0 => []
  | fuel + 1 =>
    if h : i < cs.length then
      match matchAt cs i with
      | some e => subFrom cs e fuel
      | none => cs.get ⟨i, h⟩ :: subFrom cs (i + 1) fuel
    else []

/-- `re.sub(author_pattern, '', text, flags=re.IGNORECASE)` (line 67). -/
def sub_author_metadata (cs : Str) : Str :=
  subFrom cs 0 (cs.length + 1)

/-- Python `str.strip()` (ASCII whitespace fragment). -/
def pyStrip (cs : Str) : Str :=
  ((cs.dropWhile isPyWS).reverse.dropWhile isPyWS).reverse

/-- Does `needle` occur as a prefix of `haystack`? -/
def startsWithChars : Str → Str → Bool
  | [], _ => true
  | _ :: _, [] => false
  | n :: ns, h :: hs => n == h && startsWithChars ns hs

/-- Leftmost occurrence of `needle` at a position `≥ j` (the non-greedy
`.*?needle` search with `re.DOTALL`, where any character may be skipped). -/
def findSubstrFrom (needle cs : Str) (j : Nat) : Nat → Option Nat
  | 0 => none
  | fuel + 1 =>
    if startsWithChars needle (cs.drop j) then some j
    else if j < cs.length then findSubstrFrom needle cs (j + 1) fuel
    else none

/-- Leftmost occurrence of `needle` at a position `≥ j` reachable without
crossing a newline (the non-greedy `.*?needle` search without `re.DOTALL`,
where `.` does not match a newline). -/
def findSubstrNoNLFrom (needle cs : Str) (j : Nat) : Nat → Option Nat
  | 0 => none
  | fuel + 1 =>
    if startsWithChars needle (cs.drop j) then some j
    else
      match cs[j]? with
      | some c => if c == '\n' then none else findSubstrNoNLFrom needle cs (j + 1) fuel
      | none => none

def navStart : Str := "Skip to content".data

def navEnd : Str := "Most recent".data

/-- `re.sub(r'^Skip to content.*?Most recent', '', text, flags=re.DOTALL)`
(line 24).  Anchored at the start, so at most one replacement happens; the
non-greedy `.*?` selects the earliest `Most recent` after the start marker. -/
def strip_nav_preamble (cs : Str) : Str :=
  if startsWithChars navStart cs then
    match findSubstrFrom navEnd cs navStart.length (cs.length + 1) with
    | some j => cs.drop (j + navEnd.length)
    | none => cs
  else cs

def followersLabel : Str := " followers".data

def moreMarker : Str := "More".data

/-- `re.sub(r'^\d+ followers.*?More', '', text)` (line 25).  The greedy
`\d+` must take the maximal digit run (a shorter run leaves a digit where
the literal space is required), and without `re.DOTALL` the non-greedy
`.*?` cannot cross a newline. -/
def strip_followers_preamble (cs : Str) : Str :=
  let k := (cs.takeWhile Char.isDigit).length
  if 1 ≤ k ∧ startsWithChars followersLabel (cs.drop k) = true then
    match findSubstrNoNLFrom moreMarker cs (k + followersLabel.length) (cs.length + 1) with
    | some j => cs.drop (j + moreMarker.length)
    | none => cs
  else cs

/-- Python `str.rfind(c)`: index of the last occurrence. -/
def rfindPos : Str → Char → Option Nat
  | [], _ => none
  | a :: rest, c =>
    match rfindPos rest c with
    | some p => some (p + 1)
    | none => if a == c then some 0 else none

/-- The body of `clean_answer_block` after the two preamble substitutions
(lines 30-74): either fall back to the last-question-mark heuristic (no
metadata) or cut after the end of the last metadata match, split at the
last `?`, scrub residual metadata from the answer, and apply the substance
checks. -/
def clean_answer_core (t : Str) : Option Str × Option Str :=
  match (findAuthorMatches t).getLast? with
  | none =>
    match rfindPos t '?' with
    | some p =>
      let question := pyStrip (t.take (p + 1))
      let answer := pyStrip (t.drop (p + 1))
      if question ≠ answer ∧ 20 < question.length ∧ 10 < answer.length then
        (some question, some answer)
      else (none, none)
    | none => (none, none)
  | some m =>
    let content := pyStrip (t.drop m.2)
    match rfindPos content '?' with
    | some p =>
      let question := pyStrip (content.take (p + 1))
      let answer := pyStrip (sub_author_metadata (pyStrip (content.drop (p + 1))))
      if question ≠ answer ∧ 20 < question.length ∧ 10 < answer.length then
        (some question, some answer)
      else (none, none)
    | none => (none, none)

/-- `clean_answer_block(text)` (lines 12-74) with the default author
pattern: the two leading-preamble substitutions followed by the
question/answer separation. -/
def clean_answer_block (text : Str) : Option Str × Option Str :=
  clean_answer_core (strip_followers_preamble (strip_nav_preamble text))

/-- The spans produced by the splitting loop of `split_multiple_qa_blocks`
(lines 123-134) before the length filter: each match start is paired with
the next match start (or the end of the text), and the slice is stripped. -/
def spansFromStarts (cs : Str) : List Nat → List Str
  | [] => []
  | [s] => [pyStrip (cs.drop s)]
  | s₁ :: s₂ :: rest => pyStrip ((cs.drop s₁).take (s₂ - s₁)) :: spansFromStarts cs (s₂ :: rest)

/-- The same loop including the `len(block) > 50` keep-condition
(line 135). -/
def blocksFromStarts (cs : Str) : List Nat → List Str
  | [] => []
  | [s] =>
    let b := pyStrip (cs.drop s)
    if 50 < b.length then [b] else []
  | s₁ :: s₂ :: rest =>
    let b := pyStrip ((cs.drop s₁).take (s₂ - s₁))
    if 50 < b.length then b :: blocksFromStarts cs (s₂ :: rest)
    else blocksFromStarts cs (s₂ :: rest)

/-- The stripped spans of a text, as cut at its author-metadata matches. -/
def splitSpans (cs : Str) : List Str :=
  spansFromStarts cs ((findAuthorMatches cs).map Prod.fst)

/-- `split_multiple_qa_blocks(text)` (lines 98-138) with the default
pattern. -/
def split_multiple_qa_blocks (cs : Str) : List Str :=
  let ms := findAuthorMatches cs
  if ms.length ≤ 1 then [cs]
  else blocksFromStarts cs (ms.map Prod.fst)

/-- A cleaned record: the dictionary `{'question': ..., 'answer': ...}`
(the `extracted_at` pass-through field plays no role in the pipeline logic
and is omitted). -/
structure QARecord where
  question : Str
  answer : Str
deriving DecidableEq, Repr

/-- `re.sub(r'\s+', ' ', s)`: every maximal whitespace run becomes one
space.  A space at the head of the accumulator always stands for the run
that follows the current character (a literal `' '` is itself whitespace),
so prepending a whitespace character merges with it. -/
def collapseWS (l : Str) : Str :=
  l.foldr
    (fun c acc =>
      if isPyWS c then if acc.head? = some ' ' then acc else ' ' :: acc
      else c :: acc) []

/-- `re.sub(r'\s+', ' ', question.lower().strip())` (line 88). -/
def normalize_question (q : Str) : Str :=
  collapseWS (pyStrip (q.map Char.toLower))

/-- The loop of `deduplicate_answers` (lines 84-93); `seen` is the
`seen_questions` set, modelled as the list of keys added so far. -/
def dedupGo (seen : List Str) : List QARecord → List QARecord
  | [] => []
  | r :: rest =>
    let n := normalize_question r.question
    if n ∉ seen ∧ 20 < n.length then r :: dedupGo (n :: seen) rest
    else dedupGo seen rest

/-- `deduplicate_answers(answers)` (lines 77-95). -/
def deduplicate_answers (answers : List QARecord) : List QARecord :=
  dedupGo [] answers

/-- The acceptance test of the orchestrator (lines 175-183): the `None`
check followed by `question and answer and len(question) > 20 and
len(answer) > 10 and question != answer`. -/
def validate_candidate : Option Str → Option Str → Bool
  | some q, some a =>
    !q.isEmpty && !a.isEmpty && decide (20 < q.length) && decide (10 < a.length) &&
      decide (q ≠ a)
  | _, _ => false

/-- One iteration of the per-block loop of `clean_ultimate_output`
(lines 170-190): accumulated (records, skipped count). -/
def processBlock (acc : List QARecord × Nat) (block : Str) : List QARecord × Nat :=
  match clean_answer_block block with
  | (some q, some a) =>
    if validate_candidate (some q) (some a) then (acc.1 ++ [⟨q, a⟩], acc.2)
    else (acc.1, acc.2 + 1)
  | _ => (acc.1, acc.2 + 1)

/-- Split one raw blob and run the per-block loop (lines 163-190). -/
def processBlob (text : Str) : List QARecord × Nat :=
  (split_multiple_qa_blocks text).foldl processBlock ([], 0)

/-- The in-memory core of `clean_ultimate_output` (lines 153-198): process
every blob in order, then deduplicate; returns the final records and the
skipped count. -/
def runPipeline (blobs : List Str) : List QARecord × Nat :=
  let raw := blobs.foldl
    (fun acc b =>
      let pb := processBlob b
      (acc.1 ++ pb.1, acc.2 + pb.2)) ([], 0)
  (deduplicate_answers raw.1, raw.2)

/-- Modelled from the spec: the Deduplicator described by the specification
keeps exactly the records that are the first occurrence (among all earlier
records, here accumulated in `prev`) of their normalized question key and
whose normalized question length is greater than 20. -/
def dedupSpecGo (prev : List QARecord) : List QARecord → List QARecord
  | [] => []
  | r :: rest =>
    if 20 < (normalize_question r.question).length ∧
        ∀ p ∈ prev, normalize_question p.question ≠ normalize_question r.question then
      r :: dedupSpecGo (prev ++ [r]) rest
    else dedupSpecGo (prev ++ [r]) rest

/-- Modelled from the spec: the Deduplicator's contract as worded in the
specification (first occurrence of each normalization key, normalized
length above 20, input order preserved). -/
def deduplicate_spec (xs : List QARecord) : List QARecord :=
  dedupSpecGo [] xs

/-- The date-token alternative of the default author pattern, as the
specification describes it: a relative-age token (digits followed by a
`y`/`m`/`o` letter) or an abbreviated-month-plus-day token (three letters, a
space, digits), classes taken case-insensitively; `t` is the end offset. -/
def DateToken (cs : Str) (p t : Nat) : Prop :=
  (∃ k, 1 ≤ k ∧ (∀ j < k, ∃ c, cs[p + j]? = some c ∧ c.isDigit = true) ∧
    (∃ c, cs[p + k]? = some c ∧ isYMO c = true) ∧ t = p + k + 1) ∨
  ((∃ c, cs[p]? = some c ∧ isAsciiAlpha c = true) ∧
    (∃ c, cs[p + 1]? = some c ∧ isAsciiAlpha c = true) ∧
    (∃ c, cs[p + 2]? = some c ∧ isAsciiAlpha c = true) ∧
    cs[p + 3]? = some ' ' ∧
    ∃ k, 1 ≤ k ∧ (∀ j < k, ∃ c, cs[p + 4 + j]? = some c ∧ c.isDigit = true) ∧
      t = p + 4 + k)

/-- The shape of an occurrence of the default author pattern, as the
specification describes it: an uppercase-led run (the leading letter class
taken case-insensitively) of 5-50 non-separator characters, the separator
glyph `·`, a date token, and an optional trailing separator. -/
def MatchShape (cs : Str) (s e : Nat) : Prop :=
  (∃ c, cs[s]? = some c ∧ isAsciiAlpha c = true) ∧
  ∃ d, 5 ≤ d ∧ d ≤ 50 ∧
    (∀ j < d, ∃ c, cs[s + 1 + j]? = some c ∧ c ≠ '·') ∧
    cs[s + 1 + d]? = some '·' ∧
    ∃ t, DateToken cs (s + d + 2) t ∧
      (e = t ∨ (cs[t]? = some '·' ∧ e = t + 1))

/-! Concrete inputs used by the scenario claims and the counterexamples. -/

/-- Scenario A input blob. -/
def blobA : Str :=
  "Jane Doe B.Sc.·5y·What is the speed of light? It is approximately 299,792 kilometers per second in vacuum.".data

/-- Scenario A expected question. -/
def questionA : Str := "What is the speed of light?".data

/-- Scenario A expected answer. -/
def answerA : Str := "It is approximately 299,792 kilometers per second in vacuum.".data

/-- Scenario B input blob: two concatenated metadata signatures. -/
def blobB : Str :=
  "Jane Doe·5y·Q1? A1 text long enough.John Roe·2mo·Q2? A2 text long enough.".data

/-- The single block that the splitter actually returns on `blobB`: the
second metadata match starts at `Q1?` (the scan resumes right after the
first match and `Q` begins an uppercase-led run that reaches the `·` of
`John Roe·`), so the first span is only the 12-character signature and is
discarded. -/
def blockB2 : Str :=
  "Q1? A1 text long enough.John Roe·2mo·Q2? A2 text long enough.".data

/-- Two adjacent short metadata signatures: both spans are at most 50
characters long, so the splitter discards everything. -/
def blobTwoShort : Str := "Jane Doe·5y·John Roe·2mo·".data

/-- A blob whose first span has exactly 50 characters. -/
def blobSpan50 : Str :=
  "Jane Doe·5y·".data ++ List.replicate 38 '.' ++ "John Roe·2mo·".data

/-- The exactly-50-character span of `blobSpan50`. -/
def span50 : Str := "Jane Doe·5y·".data ++ List.replicate 38 '.'

/-- Scenario C input blob. -/
def blobShort : Str := "Short".data

/-- A question whose raw length is 23 but whose normalized length is 4:
`a`, twenty spaces, `b?`. -/
def wideQuestion : Str := 'a' :: (List.replicate 20 ' ' ++ "b?".data)

/-- A plain answer string of length 22. -/
def plainAnswer : Str := "this is a valid answer".data

/-! Helper lemmas. -/

theorem takeWhile_get (p : Char → Bool) :
    ∀ (l : Str) (j : Nat), j < (l.takeWhile p).length →
      ∃ c, l[j]? = some c ∧ p c = true := by
  intro l
  induction l with
  | nil => intro j h; simp [List.takeWhile] at h
  | cons a rest ih =>
    intro j h
    rw [List.takeWhile_cons] at h
    by_cases hpa : p a = true
    · rw [if_pos hpa] at h
      cases j with
      | zero => exact ⟨a, by simp, hpa⟩
      | succ j =>
        obtain ⟨c, hc, hpc⟩ := ih j (by simpa using h)
        exact ⟨c, by simpa using hc, hpc⟩
    · rw [if_neg hpa] at h
      simp at h

theorem getLast?_take_succ :
    ∀ (l : Str) (j : Nat) (c : Char), l[j]? = some c →
      (l.take (j + 1)).getLast? = some c := by
  intro l
  induction l with
  | nil => intro j c h; simp at h
  | cons a rest ih =>
    intro j c h
    cases j with
    | zero =>
      simp at h
      simp [h]
    | succ j =>
      simp only [List.getElem?_cons_succ] at h
      have h' := ih j c h
      rw [List.take_succ_cons]
      cases htr : rest.take (j + 1) with
      | nil => rw [htr] at h'; simp at h'
      | cons b bs =>
        rw [htr] at h'
        rw [List.getLast?_cons_cons]
        exact h'

theorem mem_of_mem_dropWhile (p : Char → Bool) (l : Str) (c : Char)
    (h : c ∈ l.dropWhile p) : c ∈ l :=
  (List.dropWhile_sublist (p := p) (l := l)).mem h

theorem mem_of_mem_pyStrip (l : Str) (c : Char) (h : c ∈ pyStrip l) : c ∈ l := by
  unfold pyStrip at h
  rw [List.mem_reverse] at h
  have h1 := mem_of_mem_dropWhile _ _ _ h
  rw [List.mem_reverse] at h1
  exact mem_of_mem_dropWhile _ _ _ h1

theorem getLast?_dropWhile (p : Char → Bool) :
    ∀ (l : Str) (c : Char), l.getLast? = some c → p c = false →
      (l.dropWhile p).getLast? = some c := by
  intro l
  induction l with
  | nil => intro c h hc; simp at h
  | cons x xs ih =>
    intro c h hc
    cases xs with
    | nil =>
      simp at h
      subst h
      simp [List.dropWhile_cons, hc]
    | cons y ys =>
      rw [List.getLast?_cons_cons] at h
      by_cases hx : p x = true
      · rw [List.dropWhile_cons, if_pos hx]
        exact ih c h hc
      · rw [List.dropWhile_cons, if_neg hx, List.getLast?_cons_cons]
        exact h

theorem pyStrip_getLast (l : Str) (c : Char) (h : l.getLast? = some c)
    (hc : isPyWS c = false) : (pyStrip l).getLast? = some c := by
  unfold pyStrip
  have h1 : (l.dropWhile isPyWS).getLast? = some c := getLast?_dropWhile _ l c h hc
  have h2 : (l.dropWhile isPyWS).reverse.head? = some c := by
    rw [List.head?_reverse]; exact h1
  cases hrev : (l.dropWhile isPyWS).reverse with
  | nil => rw [hrev] at h2; simp at h2
  | cons d ds =>
    rw [hrev] at h2
    simp at h2
    subst h2
    rw [List.dropWhile_cons, if_neg (by rw [hc]; exact Bool.false_ne_true)]
    rw [List.getLast?_reverse]
    rfl

theorem rfindPos_none (c : Char) : ∀ l : Str, rfindPos l c = none → c ∉ l := by
  intro l
  induction l with
  | nil => intro h; simp
  | cons a rest ih =>
    intro h
    unfold rfindPos at h
    cases hr : rfindPos rest c with
    | some p => rw [hr] at h; simp at h
    | none =>
      rw [hr] at h
      by_cases hac : a == c
      · rw [if_pos hac] at h; simp at h
      · rw [if_neg hac] at h
        simp only [List.mem_cons, not_or]
        exact ⟨fun heq => hac (by rw [heq]; exact beq_self_eq_true a), ih hr⟩

theorem rfindPos_spec (c : Char) :
    ∀ (l : Str) (j : Nat), rfindPos l c = some j →
      l[j]? = some c ∧ c ∉ l.drop (j + 1) := by
  intro l
  induction l with
  | nil => intro j h; simp [rfindPos] at h
  | cons a rest ih =>
    intro j h
    unfold rfindPos at h
    cases hr : rfindPos rest c with
    | some p =>
      rw [hr] at h
      simp at h
      subst h
      obtain ⟨h1, h2⟩ := ih p hr
      exact ⟨by simpa using h1, by simpa using h2⟩
    | none =>
      rw [hr] at h
      by_cases hac : a == c
      · rw [if_pos hac] at h
        simp at h
        subst h
        refine ⟨by simpa using (beq_iff_eq.mp hac), ?_⟩
        simpa using rfindPos_none c rest hr
      · rw [if_neg hac] at h
        simp at h

theorem subFrom_subset (cs : Str) :
    ∀ (fuel i : Nat) (c : Char), c ∈ subFrom cs i fuel → c ∈ cs := by
  intro fuel
  induction fuel with
  | zero => intro i c h; simp [subFrom] at h
  | succ f ih =>
    intro i c h
    unfold subFrom at h
    split at h
    · rename_i hlt
      cases hm : matchAt cs i with
      | some e => rw [hm] at h; exact ih e c h
      | none =>
        rw [hm] at h
        rcases List.mem_cons.mp h with heq | htail
        · rw [heq]; exact List.get_mem cs i hlt
        · exact ih (i + 1) c htail
    · simp at h

theorem findFrom_sound (cs : Str) :
    ∀ (fuel i s e : Nat), (s, e) ∈ findFrom cs i fuel → matchAt cs s = some e := by
  intro fuel
  induction fuel with
  | zero => intro i s e h; simp [findFrom] at h
  | succ f ih =>
    intro i s e h
    unfold findFrom at h
    split at h
    · cases hm : matchAt cs i with
      | some e' =>
        rw [hm] at h
        rcases List.mem_cons.mp h with heq | htail
        · injection heq with hs he
          rw [hs, he]
          exact hm
        · exact ih e' s e htail
      | none =>
        rw [hm] at h
        exact ih (i + 1) s e h
    · simp at h

theorem dedupGo_mem :
    ∀ (xs : List QARecord) (seen : List Str) (r : QARecord), r ∈ dedupGo seen xs →
      normalize_question r.question ∉ seen ∧
        20 < (normalize_question r.question).length := by
  intro xs
  induction xs with
  | nil => intro seen r h; simp [dedupGo] at h
  | cons x rest ih =>
    intro seen r h
    simp only [dedupGo] at h
    split at h
    · rename_i hcond
      rcases List.mem_cons.mp h with heq | htail
      · rw [heq]; exact hcond
      · obtain ⟨h1, h2⟩ := ih _ r htail
        exact ⟨fun hs => h1 (List.mem_cons_of_mem _ hs), h2⟩
    · exact ih seen r h

theorem dedupGo_pairwise :
    ∀ (xs : List QARecord) (seen : List Str),
      (dedupGo seen xs).Pairwise
        (fun a b => normalize_question a.question ≠ normalize_question b.question) := by
  intro xs
  induction xs with
  | nil => intro seen; simp [dedupGo]
  | cons x rest ih =>
    intro seen
    simp only [dedupGo]
    split
    · refine List.Pairwise.cons ?_ (ih _)
      intro b hb heq
      have hmem := (dedupGo_mem rest _ b hb).1
      exact hmem (heq ▸ List.mem_cons_self _ _)
    · exact ih seen

theorem dedupGo_fixed :
    ∀ (ys : List QARecord) (seen : List Str),
      (∀ r ∈ ys, normalize_question r.question ∉ seen ∧
          20 < (normalize_question r.question).length) →
      ys.Pairwise (fun a b => normalize_question a.question ≠ normalize_question b.question) →
      dedupGo seen ys = ys := by
  intro ys
  induction ys with
  | nil => intro seen _ _; rfl
  | cons x rest ih =>
    intro seen hall hpw
    obtain ⟨hx, hlen⟩ := hall x (List.mem_cons_self _ _)
    simp only [dedupGo]
    rw [if_pos ⟨hx, hlen⟩]
    congr 1
    apply ih
    · intro r hr
      obtain ⟨h1, h2⟩ := hall r (List.mem_cons_of_mem _ hr)
      refine ⟨?_, h2⟩
      intro hmem
      rcases List.mem_cons.mp hmem with heq | hseen
      · exact (List.pairwise_cons.mp hpw).1 r hr heq.symm
      · exact h1 hseen
    · exact (List.pairwise_cons.mp hpw).2

theorem dedupGo_eq_spec :
    ∀ (xs : List QARecord) (seen : List Str) (prev : List QARecord),
      (∀ k : Str, 20 < k.length →
        (k ∈ seen ↔ ∃ p ∈ prev, normalize_question p.question = k)) →
      dedupGo seen xs = dedupSpecGo prev xs := by
  intro xs
  induction xs with
  | nil => intro seen prev hinv; rfl
  | cons r rest ih =>
    intro seen prev hinv
    simp only [dedupGo, dedupSpecGo]
    by_cases hlen : 20 < (normalize_question r.question).length
    · by_cases hseen : normalize_question r.question ∈ seen
      · obtain ⟨p, hp, hkey⟩ := (hinv _ hlen).mp hseen
        rw [if_neg (fun hc => hc.1 hseen),
          if_neg (fun hc => hc.2 p hp hkey)]
        apply ih seen (prev ++ [r])
        intro k hk
        rw [hinv k hk]
        constructor
        · rintro ⟨p', hp', hk'⟩; exact ⟨p', List.mem_append_left _ hp', hk'⟩
        · rintro ⟨p', hp', hk'⟩
          rcases List.mem_append.mp hp' with hl | hr
          · exact ⟨p', hl, hk'⟩
          · simp at hr
            subst hr
            exact ⟨p, hp, hkey.trans hk'⟩
      · have hall : ∀ p ∈ prev,
            normalize_question p.question ≠ normalize_question r.question := by
          intro p hp heq
          exact hseen ((hinv _ hlen).mpr ⟨p, hp, heq⟩)
        rw [if_pos ⟨hseen, hlen⟩, if_pos ⟨hlen, hall⟩]
        congr 1
        apply ih (normalize_question r.question :: seen) (prev ++ [r])
        intro k hk
        constructor
        · intro hmem
          rcases List.mem_cons.mp hmem with heq | hs
          · exact ⟨r, List.mem_append_right _ (by simp), heq.symm⟩
          · obtain ⟨p, hp, hkey⟩ := (hinv k hk).mp hs
            exact ⟨p, List.mem_append_left _ hp, hkey⟩
        · rintro ⟨p', hp', hk'⟩
          rcases List.mem_append.mp hp' with hl | hr
          · exact List.mem_cons_of_mem _ ((hinv k hk).mpr ⟨p', hl, hk'⟩)
          · simp at hr
            subst hr
            rw [← hk']
            exact List.mem_cons_self _ _
    · rw [if_neg (fun hc => hlen hc.2), if_neg (fun hc => hlen hc.1)]
      apply ih seen (prev ++ [r])
      intro k hk
      rw [hinv k hk]
      constructor
      · rintro ⟨p', hp', hk'⟩; exact ⟨p', List.mem_append_left _ hp', hk'⟩
      · rintro ⟨p', hp', hk'⟩
        rcases List.mem_append.mp hp' with hl | hr
        · exact ⟨p', hl, hk'⟩
        · simp at hr
          subst hr
          rw [← hk'] at hk
          exact absurd hk hlen

theorem blocksFromStarts_eq_filter (cs : Str) :
    ∀ l : List Nat, blocksFromStarts cs l =
      (spansFromStarts cs l).filter (fun b => decide (50 < b.length)) := by
  intro l
  induction l with
  | nil => rfl
  | cons s t ih =>
    cases t with
    | nil =>
      simp only [blocksFromStarts, spansFromStarts, List.filter_cons, List.filter_nil]
      by_cases hb : 50 < (pyStrip (cs.drop s)).length
      · simp [hb]
      · simp [hb]
    | cons s₂ r =>
      simp only [blocksFromStarts, spansFromStarts, List.filter_cons]
      by_cases hb : 50 < (pyStrip ((cs.drop s).take (s₂ - s))).length
      · simp [hb, ih]
      · simp [hb, ih]


theorem testChar_spec (cs : Str) (j : Nat) (p : Char → Bool)
    (h : testChar cs j p = true) : ∃ c, cs[j]? = some c ∧ p c = true := by
  unfold testChar at h
  cases hc : cs[j]? with
  | none => rw [hc] at h; simp at h
  | some c => rw [hc] at h; exact ⟨c, rfl, h⟩

theorem dateAlt_sound (cs : Str) (p t : Nat) (h : dateAlt cs p = some t) :
    DateToken cs p t := by
  simp only [dateAlt] at h
  split at h
  · rename_i hcond
    obtain ⟨hk, hymo⟩ := hcond
    left
    refine ⟨((cs.drop p).takeWhile Char.isDigit).length, hk, ?_, ?_, ?_⟩
    · intro j hj
      obtain ⟨c, hc, hpc⟩ := takeWhile_get Char.isDigit (cs.drop p) j hj
      refine ⟨c, ?_, hpc⟩
      rw [← hc, List.getElem?_drop]
    · obtain ⟨c, hc, hpc⟩ := testChar_spec _ _ _ hymo
      exact ⟨c, hc, hpc⟩
    · simpa using h.symm
  · split at h
    · rename_i hcond
      obtain ⟨h1, h2, h3, hsp, hk2⟩ := hcond
      right
      refine ⟨testChar_spec _ _ _ h1, testChar_spec _ _ _ h2, testChar_spec _ _ _ h3,
        hsp, ((cs.drop (p + 4)).takeWhile Char.isDigit).length, hk2, ?_, ?_⟩
      · intro j hj
        obtain ⟨c, hc, hpc⟩ := takeWhile_get Char.isDigit (cs.drop (p + 4)) j hj
        refine ⟨c, ?_, hpc⟩
        rw [← hc, List.getElem?_drop]
      · simpa using h.symm
    · simp at h

theorem matchAt_sound (cs : Str) (s e : Nat) (h : matchAt cs s = some e) :
    MatchShape cs s e := by
  simp only [matchAt] at h
  split at h
  · simp at h
  · rename_i c0 hsome
    split at h
    · rename_i hα
      split at h
      · rename_i hcond
        obtain ⟨h5, h50, hdot⟩ := hcond
        split at h
        · rename_i t hda
          refine ⟨⟨c0, hsome, hα⟩,
            ((cs.drop (s + 1)).takeWhile (fun c => c != '·')).length, h5, h50, ?_, hdot,
            t, dateAlt_sound cs _ t hda, ?_⟩
          · intro j hj
            obtain ⟨c, hc, hpc⟩ :=
              takeWhile_get (fun c => c != '·') (cs.drop (s + 1)) j hj
            refine ⟨c, ?_, bne_iff_ne.mp hpc⟩
            rw [← hc, List.getElem?_drop]
          · by_cases hmid : cs[t]? = some '·'
            · right
              refine ⟨hmid, ?_⟩
              rw [if_pos hmid] at h
              simpa using h.symm
            · left
              rw [if_neg hmid] at h
              simpa using h.symm
        · simp at h
      · simp at h
    · simp at h

end QuoraClean

namespace QuoraClean

/-! Claim theorems. -/

/-- Claim C1, counterexample: on the Scenario B blob the Block Splitter does
not return 2 blocks.  The scan resumes right after the first signature, so
the second match starts at `Q1?` and ends inside `2mo`; the first span is
the 12-character signature, which the length filter discards. -/
theorem c1_counterexample : (split_multiple_qa_blocks blobB).length ≠ 2 := by decide

/-- Claim C1, amended: on the Scenario B blob the Block Splitter returns
exactly one block (everything from `Q1?` on), and the Cleaner/Validator on
that block yield 0 Records with 1 skip (the question candidate left after
the last metadata match is the 5-character `o·Q2?`). -/
theorem c1_amended_scenario_b :
    split_multiple_qa_blocks blobB = [blockB2] ∧ processBlob blobB = ([], 1) ∧
      runPipeline [blobB] = ([], 1) := by decide

/-- Claim C2, counterexample: a text on which the Matcher finds two matches
but every resulting span is discarded, so the Block Splitter returns the
empty sequence. -/
theorem c2_counterexample :
    2 ≤ (findAuthorMatches blobTwoShort).length ∧
      split_multiple_qa_blocks blobTwoShort = [] := by decide

/-- Claim C2, amended: the Block Splitter returns the whole text as a
single-element (hence non-empty) sequence whenever the Matcher finds at
most one match; with two or more matches the noise filter may discard every
span and the result may be empty. -/
theorem c2_amended_single_when_at_most_one_match (cs : Str)
    (h : (findAuthorMatches cs).length ≤ 1) : split_multiple_qa_blocks cs = [cs] := by
  unfold split_multiple_qa_blocks
  simp [h]

/-- Witness for the amended Claim C2 at the 5-character blob. -/
theorem c2_witness :
    (findAuthorMatches blobShort).length ≤ 1 ∧
      split_multiple_qa_blocks blobShort = [blobShort] :=
  ⟨by decide, c2_amended_single_when_at_most_one_match blobShort (by decide)⟩

/-- Claim C3, counterexample: a span of exactly 50 characters (at least 50,
as the claim words it) that the Block Splitter discards. -/
theorem c3_counterexample :
    span50 ∈ splitSpans blobSpan50 ∧ 50 ≤ span50.length ∧
      span50 ∉ split_multiple_qa_blocks blobSpan50 := by decide

/-- Claim C3, amended: when the Matcher finds two or more matches, the Block
Splitter returns exactly the stripped spans whose length is strictly greater
than 50; a span is discarded exactly when its stripped length is at most
50. -/
theorem c3_amended_keep_iff_longer_than_50 (cs : Str)
    (h : 2 ≤ (findAuthorMatches cs).length) :
    split_multiple_qa_blocks cs =
      (splitSpans cs).filter (fun b => decide (50 < b.length)) := by
  have h' : ¬(findAuthorMatches cs).length ≤ 1 := by omega
  unfold split_multiple_qa_blocks splitSpans
  simp only [if_neg h']
  exact blocksFromStarts_eq_filter cs _

/-- Witness for the amended Claim C3 at the 50-character-span blob. -/
theorem c3_witness :
    2 ≤ (findAuthorMatches blobSpan50).length ∧
      split_multiple_qa_blocks blobSpan50 =
        (splitSpans blobSpan50).filter (fun b => decide (50 < b.length)) :=
  ⟨by decide, c3_amended_keep_iff_longer_than_50 blobSpan50 (by decide)⟩

/-- Claim C4, counterexample: the Record Validator accepts a candidate whose
question has raw length 23 but normalized (whitespace-collapsed) length 4,
so acceptance is not governed by the normalized question length. -/
theorem c4_counterexample :
    validate_candidate (some wideQuestion) (some plainAnswer) = true ∧
      ¬20 < (normalize_question wideQuestion).length := by decide

/-- Claim C4, amended: the Record Validator accepts a Candidate iff its
question is non-null, its answer is non-null, its question's RAW length is
greater than 20, its answer's length is greater than 10, and the question
text is not identical to the answer text (normalization plays no role
here). -/
theorem c4_amended_validator_iff (qo ao : Option Str) :
    validate_candidate qo ao = true ↔
      ∃ q a, qo = some q ∧ ao = some a ∧ 20 < q.length ∧ 10 < a.length ∧ q ≠ a := by
  cases qo with
  | none => simp [validate_candidate]
  | some q =>
    cases ao with
    | none => simp [validate_candidate]
    | some a =>
      constructor
      · intro h
        simp only [validate_candidate, Bool.and_eq_true, decide_eq_true_eq] at h
        exact ⟨q, a, rfl, rfl, h.1.1.2, h.1.2, h.2⟩
      · rintro ⟨q', a', hq, ha, h20, h10, hne⟩
        rw [hq, ha]
        have hqne : q' ≠ [] := by intro h0; rw [h0] at h20; simp at h20
        have hane : a' ≠ [] := by intro h0; rw [h0] at h10; simp at h10
        simp only [validate_candidate, Bool.and_eq_true, decide_eq_true_eq]
        refine ⟨⟨⟨⟨?_, ?_⟩, h20⟩, h10⟩, hne⟩
        · simpa using hqne
        · simpa using hane

/-- Claim C5: every occurrence returned by the Metadata Pattern Matcher's
default pattern has the advertised shape: a letter (the uppercase class
taken case-insensitively) leading 5-50 non-separator characters, the
separator glyph, a relative-age or abbreviated-month-plus-day date token,
and an optional trailing separator. -/
theorem c5_author_match_shape (cs : Str) (s e : Nat)
    (h : (s, e) ∈ findAuthorMatches cs) : MatchShape cs s e :=
  matchAt_sound cs s e (findFrom_sound cs (cs.length + 1) 0 s e h)

/-- Witness for Claim C5 at the Scenario A blob. -/
theorem c5_witness : (0, 18) ∈ findAuthorMatches blobA ∧ MatchShape blobA 0 18 :=
  ⟨by decide, c5_author_match_shape blobA 0 18 (by decide)⟩

/-- Claim C6: the Deduplicator returns exactly the subsequence of records
that are the first occurrence of their normalized question key and whose
normalized question length is greater than 20 (the specification's wording,
captured by `deduplicate_spec`). -/
theorem c6_dedup_eq_spec (xs : List QARecord) :
    deduplicate_answers xs = deduplicate_spec xs :=
  dedupGo_eq_spec xs [] [] (by intro k hk; simp)

/-- Claim C7: the Deduplicator is idempotent — its output is a fixed
point. -/
theorem c7_dedup_idempotent (xs : List QARecord) :
    deduplicate_answers (deduplicate_answers xs) = deduplicate_answers xs := by
  unfold deduplicate_answers
  apply dedupGo_fixed
  · intro r hr
    exact ⟨by simp, (dedupGo_mem xs [] r hr).2⟩
  · exact dedupGo_pairwise xs []

/-- Claim C8 (Scenario A): the pipeline on the Scenario A blob produces
exactly one Record, with the advertised question and answer, and skips
nothing. -/
theorem c8_scenario_a : runPipeline [blobA] = ([⟨questionA, answerA⟩], 0) := by decide

/-- Claim C9 (Scenario C): on the blob `Short` the Cleaner returns the
null/null failure pair, and the pipeline counts one skip and produces zero
Records. -/
theorem c9_scenario_c :
    clean_answer_block blobShort = (none, none) ∧ runPipeline [blobShort] = ([], 1) := by
  decide

/-- Claim C10: whenever the Cleaner returns a non-null Candidate, the
question ends with `?` and the answer contains no `?` — in both the
no-metadata fallback branch and the metadata-found branch. -/
theorem c10_cleaner_question_answer_shape (cs q a : Str)
    (h : clean_answer_block cs = (some q, some a)) :
    q.getLast? = some '?' ∧ '?' ∉ a := by
  unfold clean_answer_block at h
  generalize strip_followers_preamble (strip_nav_preamble cs) = t at h
  simp only [clean_answer_core] at h
  split at h
  · split at h
    · rename_i p hp
      split at h
      · rw [Prod.mk.injEq] at h
        obtain ⟨h1, h2⟩ := h
        obtain ⟨hget, hafter⟩ := rfindPos_spec '?' t p hp
        constructor
        · rw [← Option.some.inj h1]
          exact pyStrip_getLast _ _ (getLast?_take_succ t p '?' hget) (by decide)
        · rw [← Option.some.inj h2]
          intro hin
          exact hafter (mem_of_mem_pyStrip _ _ hin)
      · simp at h
    · simp at h
  · rename_i m hm
    split at h
    · rename_i p hp
      split at h
      · rw [Prod.mk.injEq] at h
        obtain ⟨h1, h2⟩ := h
        obtain ⟨hget, hafter⟩ := rfindPos_spec '?' (pyStrip (t.drop m.2)) p hp
        constructor
        · rw [← Option.some.inj h1]
          exact pyStrip_getLast _ _ (getLast?_take_succ _ p '?' hget) (by decide)
        · rw [← Option.some.inj h2]
          intro hin
          have h3 := mem_of_mem_pyStrip _ _ hin
          unfold sub_author_metadata at h3
          have h4 := subFrom_subset _ _ _ _ h3
          have h5 := mem_of_mem_pyStrip _ _ h4
          exact hafter h5
      · simp at h
    · simp at h

/-- Witness for Claim C10 at the Scenario A blob. -/
theorem c10_witness :
    clean_answer_block blobA = (some questionA, some answerA) ∧
      questionA.getLast? = some '?' ∧ '?' ∉ answerA :=
  ⟨by decide, c10_cleaner_question_answer_shape blobA questionA answerA (by decide)⟩

end QuoraClean
